import Mathlib

/-!
Verification development for the fetch-and-extract engine of rusty-roms
(`src-tauri/src/download.rs`): path sanitization (`safe_join`), range
planning and worker joining (`ranged_parallel_download_4`), download-path
routing, single-stream progress events (`single_stream_download`), archive
extraction (`extract_zip`), the orchestrator (`download_file`), and
destination resolution (`resolve_download_dir`).

Paths are modelled as a root flag plus a list of component strings;
filesystem state as lists of directories and of path/content bindings;
event emission as lists of events; worker threads by their outcome values.
-/

/-- A path: whether it is absolute plus its (normal) components, mirroring
`std::path::PathBuf` for the paths this program builds. -/
structure RPath where
  absolute : Bool
  comps : List String
  deriving DecidableEq, Repr

/-- One `std::path::Component` as produced by `Path::components()`: the
root-directory marker, a drive/volume prefix (Windows only), the
current-directory component, the parent-directory component, or a normal
component. -/
inductive PComp where
  | rootDir
  | volume
  | curDir
  | parentDir
  | normal (s : String)
  deriving DecidableEq, Repr

/-- Split a character list at `/` separators, keeping empty fragments
(the accumulator holds the current fragment reversed). -/
def splitCharsAux : List Char → List Char → List String
  | [], acc => [String.mk acc.reverse]
  | c :: rest, acc =>
    if c = '/' then String.mk acc.reverse :: splitCharsAux rest []
    else splitCharsAux rest (c :: acc)

/-- The `/`-separated fragments of a path string. -/
def pathFrags (s : String) : List String := splitCharsAux s.data []

/-- Classify one non-empty, non-skipped path fragment the way Rust's
component parser does: `..` is the parent-directory component, anything
else is normal. -/
def classifyFrag (p : String) : PComp :=
  if p = ".." then PComp.parentDir else PComp.normal p

/-- Does the path string begin with the separator (an absolute path)? -/
def startsWithSep (s : String) : Bool :=
  match s.data with
  | '/' :: _ => true
  | _ => false

/-- Does the path string begin with a current-directory component, i.e.
is it exactly `.` or does it begin with `./`? -/
def startsWithCurDir (s : String) : Bool :=
  match s.data with
  | ['.'] => true
  | '.' :: '/' :: _ => true
  | _ => false

/-- `Path::new(s).components()` on Unix: a leading separator yields the
root-directory marker; empty fragments (repeated or trailing separators)
and `.` fragments are dropped, except that a path beginning with `.`
(exactly `.` or `./...`) keeps one leading current-directory component. -/
def pathComponents (s : String) : List PComp :=
  let body := ((pathFrags s).filter (fun p => ¬(p = "" ∨ p = "."))).map classifyFrag
  if startsWithSep s then PComp.rootDir :: body
  else if startsWithCurDir s then PComp.curDir :: body
  else body

/-- The cleaning loop of `safe_join`: push normal components, drop
current-directory components, fail on root, volume, or parent-directory
components. `none` models the early `return Err(...)`. -/
def cleanComps : List PComp → Option (List String)
  | [] => some []
  | PComp.normal p :: rest => (cleanComps rest).map (fun tl => p :: tl)
  | PComp.curDir :: rest => cleanComps rest
  | PComp.rootDir :: _ => none
  | PComp.volume :: _ => none
  | PComp.parentDir :: _ => none

/-- `safe_join(dest_dir, entry_name)`: decompose the entry name, reject
unsafe components, and join the surviving normal components under the
destination directory. -/
def safe_join (dest_dir : RPath) (entry_name : String) : Except String RPath :=
  match cleanComps (pathComponents entry_name) with
  | none => Except.error ("Unsafe zip entry path: " ++ entry_name)
  | some clean => Except.ok ⟨dest_dir.absolute, dest_dir.comps ++ clean⟩

/-- Does a component make `safe_join` reject the entry? -/
def isUnsafeComp : PComp → Bool
  | PComp.rootDir => true
  | PComp.volume => true
  | PComp.parentDir => true
  | PComp.curDir => false
  | PComp.normal _ => false

/-- The normal components of a decomposition, in order. -/
def normalsOf (cs : List PComp) : List String :=
  cs.filterMap (fun c => match c with | PComp.normal p => some p | _ => none)

@[simp] lemma normalsOf_nil : normalsOf [] = [] := rfl

@[simp] lemma normalsOf_cons_normal (p : String) (cs : List PComp) :
    normalsOf (PComp.normal p :: cs) = p :: normalsOf cs := rfl

@[simp] lemma normalsOf_cons_rootDir (cs : List PComp) :
    normalsOf (PComp.rootDir :: cs) = normalsOf cs := rfl

@[simp] lemma normalsOf_cons_volume (cs : List PComp) :
    normalsOf (PComp.volume :: cs) = normalsOf cs := rfl

@[simp] lemma normalsOf_cons_curDir (cs : List PComp) :
    normalsOf (PComp.curDir :: cs) = normalsOf cs := rfl

@[simp] lemma normalsOf_cons_parentDir (cs : List PComp) :
    normalsOf (PComp.parentDir :: cs) = normalsOf cs := rfl

lemma cleanComps_eq_none_iff (cs : List PComp) :
    cleanComps cs = none ↔ cs.any isUnsafeComp = true := by
  induction cs with
  | nil => simp [cleanComps]
  | cons c rest ih =>
    cases c <;> simp [cleanComps, isUnsafeComp, ih, Option.map_eq_none']

lemma cleanComps_eq_some (cs : List PComp) (l : List String) :
    cleanComps cs = some l → l = normalsOf cs := by
  induction cs generalizing l with
  | nil => intro h; simpa [cleanComps] using h.symm
  | cons c rest ih =>
    intro h
    cases c with
    | normal p =>
      simp only [cleanComps, Option.map_eq_some'] at h
      obtain ⟨tl, htl, rfl⟩ := h
      simp [ih tl htl]
    | curDir => simpa using ih l (by simpa [cleanComps] using h)
    | rootDir => simp [cleanComps] at h
    | volume => simp [cleanComps] at h
    | parentDir => simp [cleanComps] at h

lemma mem_normalsOf_map (frags : List String) (c : String) :
    c ∈ normalsOf (frags.map classifyFrag) → c ∈ frags ∧ c ≠ ".." := by
  induction frags with
  | nil => simp
  | cons f fs ih =>
    simp only [List.map_cons]
    by_cases hf : f = ".."
    · simp only [classifyFrag, if_pos hf, normalsOf_cons_parentDir]
      intro h
      exact ⟨List.mem_cons_of_mem _ (ih h).1, (ih h).2⟩
    · simp only [classifyFrag, if_neg hf, normalsOf_cons_normal, List.mem_cons]
      rintro (rfl | h)
      · exact ⟨Or.inl rfl, hf⟩
      · exact ⟨Or.inr (ih h).1, (ih h).2⟩

lemma normalsOf_pathComponents_good (s : String) :
    ∀ c ∈ normalsOf (pathComponents s), c ≠ ".." ∧ c ≠ "." ∧ c ≠ "" := by
  intro c hc
  have hbody : c ∈ normalsOf
      (((pathFrags s).filter (fun p => ¬(p = "" ∨ p = "."))).map classifyFrag) := by
    unfold pathComponents at hc
    split at hc
    · simpa using hc
    · split at hc
      · simpa using hc
      · exact hc
  obtain ⟨hmem, hne⟩ := mem_normalsOf_map _ _ hbody
  have := List.of_mem_filter hmem
  simp only [decide_not, Bool.not_eq_true', decide_eq_false_iff_not] at this
  push_neg at this
  exact ⟨hne, this.2, this.1⟩

/-- C1: `safe_join` fails exactly when the entry name's component
decomposition contains a root-directory marker, a volume prefix, or a
parent-directory component; otherwise it returns the destination root with
the remaining normal components appended in order, none of which is `..`,
`.` or empty, so the result cannot escape the root. Concretely,
`a/b/c.txt` under `/dest` gives `/dest/a/b/c.txt` and `./x` gives
`/dest/x`. -/
theorem safe_join_spec (dest_dir : RPath) (entry_name : String) :
    ((∃ e, safe_join dest_dir entry_name = Except.error e) ↔
      (pathComponents entry_name).any isUnsafeComp = true) ∧
    ((pathComponents entry_name).any isUnsafeComp = false →
      safe_join dest_dir entry_name =
        Except.ok ⟨dest_dir.absolute,
          dest_dir.comps ++ normalsOf (pathComponents entry_name)⟩ ∧
      ∀ c ∈ normalsOf (pathComponents entry_name),
        c ≠ ".." ∧ c ≠ "." ∧ c ≠ "") ∧
    safe_join ⟨true, ["dest"]⟩ "a/b/c.txt" =
      Except.ok ⟨true, ["dest", "a", "b", "c.txt"]⟩ ∧
    safe_join ⟨true, ["dest"]⟩ "./x" = Except.ok ⟨true, ["dest", "x"]⟩ := by
  refine ⟨?_, ?_, rfl, rfl⟩
  · constructor
    · rintro ⟨e, he⟩
      rw [safe_join] at he
      rcases hcc : cleanComps (pathComponents entry_name) with _ | l
      · exact (cleanComps_eq_none_iff _).mp hcc
      · rw [hcc] at he; exact absurd he (by simp)
    · intro hbad
      rw [safe_join, (cleanComps_eq_none_iff _).mpr hbad]
      exact ⟨_, rfl⟩
  · intro hgood
    refine ⟨?_, normalsOf_pathComponents_good entry_name⟩
    rcases hcc : cleanComps (pathComponents entry_name) with _ | l
    · rw [(cleanComps_eq_none_iff _).mp hcc] at hgood; cases hgood
    · rw [safe_join, hcc, cleanComps_eq_some _ _ hcc]

/-- Witness for C1 at a concrete input: the decomposition of `a/b/c.txt`
has no unsafe component and `safe_join` joins it under the root. -/
theorem safe_join_spec_witness :
    safe_join ⟨true, ["dest"]⟩ "a/b/c.txt" =
      Except.ok ⟨true, ["dest"].append (normalsOf (pathComponents "a/b/c.txt"))⟩ ∧
    ∀ c ∈ normalsOf (pathComponents "a/b/c.txt"), c ≠ ".." ∧ c ≠ "." ∧ c ≠ "" :=
  (safe_join_spec ⟨true, ["dest"]⟩ "a/b/c.txt").2.1 (by decide)

/-- Wrapping (release-mode) `u64` addition. -/
def u64_add (a b : Nat) : Nat := (a + b) % 2 ^ 64

/-- Wrapping `u64` subtraction, for a subtrahend below `2^64`. -/
def u64_sub (a b : Nat) : Nat := (a + 2 ^ 64 - b) % 2 ^ 64

/-- Wrapping `u64` multiplication. -/
def u64_mul (a b : Nat) : Nat := (a * b) % 2 ^ 64

/-- The range plan of `ranged_parallel_download_4`: worker count 4, chunk
size the integer ceiling of `total_size / 4` computed as
`(total_size + chunks - 1) / chunks` in `u64`; range `i` starts at
`i * chunk_size` and is skipped when that start is at or past the total;
its end is `min (start + chunk_size - 1) (total_size - 1)`. All
arithmetic wraps at `2^64`: the ceiling numerator wraps once
`total_size + 3` reaches `2^64` (then `chunk_size` is 0 and the end
computation `0 - 1` wraps as well). -/
def download_ranges (total_size : Nat) : List (Nat × Nat) :=
  let chunks : Nat := 4
  let chunk_size := u64_sub (u64_add total_size chunks) 1 / chunks
  (List.range chunks).filterMap (fun i =>
    let start := u64_mul i chunk_size
    if start ≥ total_size then none
    else some (start,
      min (u64_sub (u64_add start chunk_size) 1) (u64_sub total_size 1)))

/-- `download_ranges` written out for the four worker indices, on totals
where the `u64` ceiling computation does not wrap. -/
lemma download_ranges_eval (T : Nat) (hT : 0 < T) (hT4 : T + 3 < 2 ^ 64) :
    download_ranges T =
      (if 0 * ((T + 4 - 1) / 4) ≥ T then []
        else [(0 * ((T + 4 - 1) / 4), min (0 * ((T + 4 - 1) / 4) + (T + 4 - 1) / 4 - 1) (T - 1))]) ++
      (if 1 * ((T + 4 - 1) / 4) ≥ T then []
        else [(1 * ((T + 4 - 1) / 4), min (1 * ((T + 4 - 1) / 4) + (T + 4 - 1) / 4 - 1) (T - 1))]) ++
      (if 2 * ((T + 4 - 1) / 4) ≥ T then []
        else [(2 * ((T + 4 - 1) / 4), min (2 * ((T + 4 - 1) / 4) + (T + 4 - 1) / 4 - 1) (T - 1))]) ++
      (if 3 * ((T + 4 - 1) / 4) ≥ T then []
        else [(3 * ((T + 4 - 1) / 4), min (3 * ((T + 4 - 1) / 4) + (T + 4 - 1) / 4 - 1) (T - 1))]) := by
  have hc : u64_sub (u64_add T 4) 1 = T + 4 - 1 := by
    simp only [u64_add, u64_sub]; omega
  have hm0 : u64_mul 0 ((T + 4 - 1) / 4) = 0 * ((T + 4 - 1) / 4) := by
    simp only [u64_mul]; omega
  have hm1 : u64_mul 1 ((T + 4 - 1) / 4) = 1 * ((T + 4 - 1) / 4) := by
    simp only [u64_mul]; omega
  have hm2 : u64_mul 2 ((T + 4 - 1) / 4) = 2 * ((T + 4 - 1) / 4) := by
    simp only [u64_mul]; omega
  have hm3 : u64_mul 3 ((T + 4 - 1) / 4) = 3 * ((T + 4 - 1) / 4) := by
    simp only [u64_mul]; omega
  have he0 : u64_sub (u64_add (0 * ((T + 4 - 1) / 4)) ((T + 4 - 1) / 4)) 1 =
      0 * ((T + 4 - 1) / 4) + (T + 4 - 1) / 4 - 1 := by
    simp only [u64_add, u64_sub]; omega
  have he1 : u64_sub (u64_add (1 * ((T + 4 - 1) / 4)) ((T + 4 - 1) / 4)) 1 =
      1 * ((T + 4 - 1) / 4) + (T + 4 - 1) / 4 - 1 := by
    simp only [u64_add, u64_sub]; omega
  have he2 : u64_sub (u64_add (2 * ((T + 4 - 1) / 4)) ((T + 4 - 1) / 4)) 1 =
      2 * ((T + 4 - 1) / 4) + (T + 4 - 1) / 4 - 1 := by
    simp only [u64_add, u64_sub]; omega
  have he3 : u64_sub (u64_add (3 * ((T + 4 - 1) / 4)) ((T + 4 - 1) / 4)) 1 =
      3 * ((T + 4 - 1) / 4) + (T + 4 - 1) / 4 - 1 := by
    simp only [u64_add, u64_sub]; omega
  have hTm : u64_sub T 1 = T - 1 := by
    simp only [u64_sub]; omega
  simp only [download_ranges]
  rw [show List.range 4 = [0, 1, 2, 3] from rfl]
  simp only [List.filterMap_cons, List.filterMap_nil]
  rw [hc, hm0, hm1, hm2, hm3, he0, he1, he2, he3, hTm]
  split_ifs <;> rfl

set_option maxHeartbeats 1600000 in
/-- C2 (amended): for every positive total size small enough that the
`u64` ceiling computation `total_size + 4 - 1` does not wrap (i.e.
`T + 3 < 2^64`), the range plan with worker count 4 and ceiling chunk
size is a list of well-formed intervals inside `[0,T)` that cover every
byte below `T`, are pairwise disjoint, are contiguous (each range starts
right after its predecessor ends), and start at byte 0; ranges whose
start would reach `T` are skipped, so this also holds for `T < 4`. For
`T ≥ 2^64 - 3` the ceiling computation wraps and the four ranges
coincide instead of partitioning. -/
theorem download_ranges_partition (T : Nat) (hT : 0 < T)
    (hT4 : T + 3 < 2 ^ 64) :
    (∀ n, n < T → ∃ r ∈ download_ranges T, r.1 ≤ n ∧ n ≤ r.2) ∧
    (∀ r ∈ download_ranges T, r.1 ≤ r.2 ∧ r.2 < T) ∧
    (download_ranges T).Pairwise (fun a b => a.2 < b.1) ∧
    (download_ranges T).Chain' (fun a b => b.1 = a.2 + 1) ∧
    (∃ e, (download_ranges T).head? = some (0, e)) := by
  have hev := download_ranges_eval T hT hT4
  obtain ⟨c, hc⟩ : ∃ c, c = (T + 4 - 1) / 4 := ⟨_, rfl⟩
  rw [← hc] at hev
  simp only [Nat.zero_mul, Nat.one_mul] at hev
  by_cases h1 : T ≤ c
  · rw [if_neg (by omega), if_pos (by omega : c ≥ T),
      if_pos (by omega : 2 * c ≥ T), if_pos (by omega : 3 * c ≥ T)] at hev
    simp only [List.append_nil, List.nil_append] at hev
    rw [hev]
    refine ⟨?_, ?_, ?_, ?_, ⟨_, rfl⟩⟩
    · intro n hn; simp only [List.mem_singleton]
      exact ⟨_, rfl, by omega, by simp; omega⟩
    · intro r hr; simp only [List.mem_singleton] at hr; subst hr
      constructor <;> simp <;> omega
    · simp
    · simp
  · by_cases h2 : T ≤ 2 * c
    · rw [if_neg (by omega), if_neg (by omega), if_pos (by omega : 2 * c ≥ T),
        if_pos (by omega : 3 * c ≥ T)] at hev
      simp only [List.append_nil, List.nil_append, List.singleton_append,
        List.cons_append] at hev
      rw [hev]
      refine ⟨?_, ?_, ?_, ?_, ⟨_, rfl⟩⟩
      · intro n hn
        by_cases hn1 : n < c
        · exact ⟨_, List.mem_cons_self _ _, by omega, by simp; omega⟩
        · refine ⟨(c, min (c + c - 1) (T - 1)), by simp, by omega, by simp; omega⟩
      · intro r hr
        rcases List.mem_cons.mp hr with h | h
        · subst h; constructor <;> simp <;> omega
        · rw [List.mem_singleton] at h; subst h; constructor <;> simp <;> omega
      · refine List.pairwise_cons.mpr ⟨?_, by simp⟩
        intro b hb; rw [List.mem_singleton] at hb; subst hb; simp; omega
      · refine List.chain'_cons.mpr ⟨?_, by simp⟩
        simp; omega
    · by_cases h3 : T ≤ 3 * c
      · rw [if_neg (by omega), if_neg (by omega), if_neg (by omega),
          if_pos (by omega : 3 * c ≥ T)] at hev
        simp only [List.append_nil, List.nil_append, List.singleton_append,
          List.cons_append] at hev
        rw [hev]
        refine ⟨?_, ?_, ?_, ?_, ⟨_, rfl⟩⟩
        · intro n hn
          by_cases hn1 : n < c
          · exact ⟨_, List.mem_cons_self _ _, by omega, by simp; omega⟩
          · by_cases hn2 : n < 2 * c
            · refine ⟨(c, min (c + c - 1) (T - 1)), by simp, by omega, by simp; omega⟩
            · refine ⟨(2 * c, min (2 * c + c - 1) (T - 1)), by simp, by omega, by simp; omega⟩
        · intro r hr
          rcases List.mem_cons.mp hr with h | hr2
          · subst h; constructor <;> simp <;> omega
          rcases List.mem_cons.mp hr2 with h | h
          · subst h; constructor <;> simp <;> omega
          · rw [List.mem_singleton] at h; subst h; constructor <;> simp <;> omega
        · refine List.pairwise_cons.mpr ⟨?_, List.pairwise_cons.mpr ⟨?_, by simp⟩⟩
          · intro b hb
            rcases List.mem_cons.mp hb with h | h
            · subst h; simp; omega
            · rw [List.mem_singleton] at h; subst h; simp; omega
          · intro b hb; rw [List.mem_singleton] at hb; subst hb; simp; omega
        · refine List.chain'_cons.mpr ⟨by simp; omega, List.chain'_cons.mpr ⟨by simp; omega, by simp⟩⟩
      · rw [if_neg (by omega), if_neg (by omega), if_neg (by omega), if_neg (by omega)] at hev
        simp only [List.append_nil, List.nil_append, List.singleton_append,
          List.cons_append] at hev
        rw [hev]
        refine ⟨?_, ?_, ?_, ?_, ⟨_, rfl⟩⟩
        · intro n hn
          by_cases hn1 : n < c
          · exact ⟨_, List.mem_cons_self _ _, by omega, by simp; omega⟩
          · by_cases hn2 : n < 2 * c
            · refine ⟨(c, min (c + c - 1) (T - 1)), by simp, by omega, by simp; omega⟩
            · by_cases hn3 : n < 3 * c
              · refine ⟨(2 * c, min (2 * c + c - 1) (T - 1)), by simp, by omega, by simp; omega⟩
              · refine ⟨(3 * c, min (3 * c + c - 1) (T - 1)), by simp, by omega, by simp; omega⟩
        · intro r hr
          rcases List.mem_cons.mp hr with h | hr2
          · subst h; constructor <;> simp <;> omega
          rcases List.mem_cons.mp hr2 with h | hr3
          · subst h; constructor <;> simp <;> omega
          rcases List.mem_cons.mp hr3 with h | h
          · subst h; constructor <;> simp <;> omega
          · rw [List.mem_singleton] at h; subst h; constructor <;> simp <;> omega
        · refine List.pairwise_cons.mpr ⟨?_, List.pairwise_cons.mpr ⟨?_,
            List.pairwise_cons.mpr ⟨?_, by simp⟩⟩⟩
          · intro b hb
            rcases List.mem_cons.mp hb with h | hb2
            · subst h; simp; omega
            rcases List.mem_cons.mp hb2 with h | h
            · subst h; simp; omega
            · rw [List.mem_singleton] at h; subst h; simp; omega
          · intro b hb
            rcases List.mem_cons.mp hb with h | h
            · subst h; simp; omega
            · rw [List.mem_singleton] at h; subst h; simp; omega
          · intro b hb; rw [List.mem_singleton] at hb; subst hb; simp; omega
        · refine List.chain'_cons.mpr ⟨by simp; omega, List.chain'_cons.mpr ⟨by simp; omega,
            List.chain'_cons.mpr ⟨by simp; omega, by simp⟩⟩⟩

/-- Witness for C2 at total size 3 (smaller than the worker count, so the
fourth range is skipped). -/
theorem download_ranges_partition_witness :
    (∀ n, n < 3 → ∃ r ∈ download_ranges 3, r.1 ≤ n ∧ n ≤ r.2) ∧
    (∀ r ∈ download_ranges 3, r.1 ≤ r.2 ∧ r.2 < 3) ∧
    (download_ranges 3).Pairwise (fun a b => a.2 < b.1) ∧
    (download_ranges 3).Chain' (fun a b => b.1 = a.2 + 1) ∧
    (∃ e, (download_ranges 3).head? = some (0, e)) :=
  download_ranges_partition 3 (by decide) (by norm_num)

/-- C2 counterexample: at total size `2^64 - 1` (a reachable
`Content-Length`) the `u64` ceiling computation wraps, `chunk_size`
becomes 0, no range is skipped, and the four ranges all come out as
`(0, 2^64 - 2)` — they overlap instead of partitioning `[0, T)`. -/
theorem download_ranges_overlap_counterexample :
    0 < 18446744073709551615 ∧
    download_ranges 18446744073709551615 =
      [(0, 18446744073709551614), (0, 18446744073709551614),
        (0, 18446744073709551614), (0, 18446744073709551614)] ∧
    ¬(download_ranges 18446744073709551615).Pairwise
        (fun a b => a.2 < b.1 ∨ b.2 < a.1) := by
  have heq : download_ranges 18446744073709551615 =
      [(0, 18446744073709551614), (0, 18446744073709551614),
        (0, 18446744073709551614), (0, 18446744073709551614)] := by decide
  refine ⟨by norm_num, heq, ?_⟩
  intro h
  rw [heq] at h
  exact absurd ((List.pairwise_cons.mp h).1 _ (List.mem_cons_self _ _))
    (by decide)

instance {α β : Type} [DecidableEq α] [DecidableEq β] : DecidableEq (Except α β)
  | Except.error a, Except.error b =>
    if h : a = b then Decidable.isTrue (h ▸ rfl)
    else Decidable.isFalse (fun he => h (Except.error.inj he))
  | Except.ok a, Except.ok b =>
    if h : a = b then Decidable.isTrue (h ▸ rfl)
    else Decidable.isFalse (fun he => h (Except.ok.inj he))
  | Except.error _, Except.ok _ => Decidable.isFalse (fun he => Except.noConfusion he)
  | Except.ok _, Except.error _ => Decidable.isFalse (fun he => Except.noConfusion he)

/-- What `JoinHandle::join` yields for one download worker: `Err` when the
thread panicked, otherwise the worker's own `Result`. -/
inductive WorkerOutcome where
  | panicked
  | finished (r : Except String Unit)
  deriving DecidableEq, Repr

/-- The join loop at the end of `ranged_parallel_download_4`: handles are
joined in launch order; a panicked worker becomes the distinguished error
and a worker error is propagated by `?` — both return from the function
immediately, before the remaining handles are joined. -/
def joinWorkers : List WorkerOutcome → Except String Unit
  | [] => Except.ok ()
  | WorkerOutcome.panicked :: _ => Except.error "A download thread panicked"
  | WorkerOutcome.finished (Except.error e) :: _ => Except.error e
  | WorkerOutcome.finished (Except.ok ()) :: rest => joinWorkers rest

/-- How many handles the join loop joins before it returns. -/
def joinedCount : List WorkerOutcome → Nat
  | [] => 0
  | WorkerOutcome.panicked :: _ => 1
  | WorkerOutcome.finished (Except.error _) :: _ => 1
  | WorkerOutcome.finished (Except.ok ()) :: rest => 1 + joinedCount rest

/-- Does this worker count as failing (an error or a panic)? -/
def isFailedWorker : WorkerOutcome → Bool
  | WorkerOutcome.panicked => true
  | WorkerOutcome.finished (Except.error _) => true
  | WorkerOutcome.finished (Except.ok _) => false

/-- The error string the join loop derives from one failed worker. -/
def workerError : WorkerOutcome → Option String
  | WorkerOutcome.panicked => some "A download thread panicked"
  | WorkerOutcome.finished (Except.error e) => some e
  | WorkerOutcome.finished (Except.ok _) => none

/-- C3 counterexample: with the first worker failing and the second still
running to success, the join loop returns after joining only the first
handle — the function does not wait for every worker to finish, contrary
to the claim. -/
theorem joinWorkers_not_wait_all_counterexample :
    (∃ w ∈ [WorkerOutcome.finished (Except.error "boom"),
        WorkerOutcome.finished (Except.ok ())], isFailedWorker w = true) ∧
    joinedCount [WorkerOutcome.finished (Except.error "boom"),
        WorkerOutcome.finished (Except.ok ())] = 1 ∧
    ([WorkerOutcome.finished (Except.error "boom"),
        WorkerOutcome.finished (Except.ok ())] : List WorkerOutcome).length = 2 := by
  decide

/-- C3 amended: once the polling loop has exited, if any worker failed
then the join loop joins handles in launch order exactly up to and
including the first failing one, does not wait on the rest, and reports
the whole job failed with that worker's error — the distinguished message
`A download thread panicked` when it panicked; no range is retried or
restarted. -/
theorem joinWorkers_first_failure (ws : List WorkerOutcome)
    (h : ws.any isFailedWorker = true) :
    ∃ w, ws.get? (ws.findIdx isFailedWorker) = some w ∧
      isFailedWorker w = true ∧
      joinWorkers ws = Except.error ((workerError w).getD "") ∧
      joinedCount ws = ws.findIdx isFailedWorker + 1 := by
  induction ws with
  | nil => simp at h
  | cons w rest ih =>
    by_cases hw : isFailedWorker w = true
    · cases w with
      | panicked =>
        refine ⟨WorkerOutcome.panicked, ?_, rfl, ?_, ?_⟩ <;>
          simp [List.findIdx_cons, isFailedWorker, joinWorkers, joinedCount, workerError]
      | finished r =>
        cases r with
        | error e =>
          refine ⟨WorkerOutcome.finished (Except.error e), ?_, rfl, ?_, ?_⟩ <;>
            simp [List.findIdx_cons, isFailedWorker, joinWorkers, joinedCount, workerError]
        | ok u => cases u; simp [isFailedWorker] at hw
    · have hrest : rest.any isFailedWorker = true := by
        rcases List.any_eq_true.mp h with ⟨x, hx, hfx⟩
        rcases List.mem_cons.mp hx with rfl | hx2
        · exact absurd hfx hw
        · exact List.any_eq_true.mpr ⟨x, hx2, hfx⟩
      obtain ⟨x, hx1, hx2, hx3, hx4⟩ := ih hrest
      have hwok : ∃ u, w = WorkerOutcome.finished (Except.ok u) := by
        cases w with
        | panicked => simp [isFailedWorker] at hw
        | finished r =>
          cases r with
          | error e => simp [isFailedWorker] at hw
          | ok u => exact ⟨u, rfl⟩
      obtain ⟨u, rfl⟩ := hwok
      cases u
      refine ⟨x, ?_, hx2, ?_, ?_⟩
      · simpa [List.findIdx_cons, isFailedWorker] using hx1
      · simpa [joinWorkers] using hx3
      · simp [List.findIdx_cons, isFailedWorker, joinedCount, hx4]
        omega

/-- Witness for the amended C3: first failure at index 1 (a panic), so
exactly two handles are joined and the panic message is surfaced. -/
theorem joinWorkers_first_failure_witness :
    ∃ w, ([WorkerOutcome.finished (Except.ok ()), WorkerOutcome.panicked,
        WorkerOutcome.finished (Except.error "late")].get?
          (([WorkerOutcome.finished (Except.ok ()), WorkerOutcome.panicked,
        WorkerOutcome.finished (Except.error "late")]).findIdx isFailedWorker)) = some w ∧
      isFailedWorker w = true ∧
      joinWorkers [WorkerOutcome.finished (Except.ok ()), WorkerOutcome.panicked,
        WorkerOutcome.finished (Except.error "late")] =
          Except.error ((workerError w).getD "") ∧
      joinedCount [WorkerOutcome.finished (Except.ok ()), WorkerOutcome.panicked,
        WorkerOutcome.finished (Except.error "late")] =
          ([WorkerOutcome.finished (Except.ok ()), WorkerOutcome.panicked,
        WorkerOutcome.finished (Except.error "late")]).findIdx isFailedWorker + 1 :=
  joinWorkers_first_failure _ (by decide)

/-- Rust `<u64 as FromStr>::from_str`, used for `CONTENT_LENGTH`: an
optional leading `+`, then at least one ASCII digit, value below `2^64`. -/
def parseU64 (s : String) : Option Nat :=
  let cs := match s.data with
    | '+' :: rest => rest
    | cs => cs
  if cs = [] then none
  else if cs.all Char.isDigit then
    let v := cs.foldl (fun a c => a * 10 + (c.toNat - 48)) 0
    if v < 2 ^ 64 then some v else none
  else none

/-- The probed total size: the `CONTENT_LENGTH` header value parsed as
`u64`, with 0 when the header is absent or unparseable. -/
def probedTotalSize (contentLength : Option String) : Nat :=
  (contentLength.bind parseU64).getD 0

/-- `to_ascii_lowercase` on one character. -/
def asciiLowerChar (c : Char) : Char :=
  if 'A' ≤ c ∧ c ≤ 'Z' then Char.ofNat (c.toNat + 32) else c

/-- `to_ascii_lowercase` on a string. -/
def asciiLower (s : String) : String := String.mk (s.data.map asciiLowerChar)

/-- Is `pat` an initial segment of `hay`? -/
def startsWithChars : List Char → List Char → Bool
  | _, [] => true
  | [], _ :: _ => false
  | a :: ha, b :: pb => a = b && startsWithChars ha pb

/-- Does `pat` occur contiguously somewhere in the character list? -/
def containsChars (pat : List Char) : List Char → Bool
  | [] => startsWithChars [] pat
  | c :: rest => startsWithChars (c :: rest) pat || containsChars pat rest

/-- Rust `str::contains` with a literal pattern. -/
def strContains (hay pat : String) : Bool := containsChars pat.data hay.data

/-- Which downloader actually runs, and on which destination path. -/
inductive DlAction where
  | single (file_path : RPath)
  | parallel (file_path : RPath)
  deriving DecidableEq, Repr

/-- The strategy decision of `ranged_parallel_download_4` after the HEAD
probe: `ACCEPT_RANGES` is lowercased (absent means the empty string), and
unless the probed total size is positive and that header contains
`bytes`, the function delegates to `single_stream_download` on the same
destination path. -/
def chooseDownloadAction (contentLength acceptRanges : Option String)
    (file_path : RPath) : DlAction :=
  let total_size := probedTotalSize contentLength
  let accept_ranges := asciiLower (acceptRanges.getD "")
  if total_size = 0 || !(strContains accept_ranges "bytes") then
    DlAction.single file_path
  else DlAction.parallel file_path

/-- C4: the parallel path is taken exactly when the probed size is
positive and the lowercased `Accept-Ranges` header contains `bytes`; in
every other case the very same destination path is handed to the
single-stream downloader, and the routing itself is never an error. -/
theorem chooseDownloadAction_spec (cl ar : Option String) (fp : RPath) :
    (chooseDownloadAction cl ar fp = DlAction.parallel fp ↔
      0 < probedTotalSize cl ∧
        strContains (asciiLower (ar.getD "")) "bytes" = true) ∧
    (¬(0 < probedTotalSize cl ∧
        strContains (asciiLower (ar.getD "")) "bytes" = true) →
      chooseDownloadAction cl ar fp = DlAction.single fp) := by
  simp only [chooseDownloadAction]
  split
  next hcond =>
    simp only [Bool.or_eq_true, Bool.not_eq_true', decide_eq_true_eq] at hcond
    constructor
    · constructor
      · intro h; cases h
      · rintro ⟨h1, h2⟩
        rcases hcond with h0 | h0
        · omega
        · rw [h2] at h0; cases h0
    · intro _; rfl
  next hcond =>
    simp only [Bool.or_eq_true, Bool.not_eq_true', decide_eq_true_eq] at hcond
    push_neg at hcond
    constructor
    · constructor
      · intro _
        exact ⟨Nat.pos_of_ne_zero hcond.1, Bool.ne_false_iff.mp hcond.2⟩
      · intro _; rfl
    · intro hno
      exact absurd ⟨Nat.pos_of_ne_zero hcond.1, Bool.ne_false_iff.mp hcond.2⟩ hno

/-- Witness for C4: a 100-byte resource advertising `Bytes` support is
routed to the parallel path. -/
theorem chooseDownloadAction_spec_witness :
    chooseDownloadAction (some "100") (some "Bytes") ⟨true, ["d", "f.zip"]⟩ =
      DlAction.parallel ⟨true, ["d", "f.zip"]⟩ :=
  (chooseDownloadAction_spec (some "100") (some "Bytes") ⟨true, ["d", "f.zip"]⟩).1.mpr
    (by constructor <;> decide)

/-- One notification sent through the progress sink: a literal message or
a percentage event carrying the byte counts the code formats as
`{:.2}%` of `downloaded / total * 100`. -/
inductive Ev where
  | msg (s : String)
  | pct (downloaded total : Nat)
  deriving DecidableEq, Repr

/-- The read loop of `single_stream_download`: each chunk of `n` bytes
advances the running count and, when the total size is known, emits one
percentage event; the loop ends at the first zero-byte read, so `chunks`
lists the sizes of the successful reads. -/
def chunkEvents (total_size : Nat) : Nat → List Nat → List Ev
  | _, [] => []
  | downloaded, n :: rest =>
    (if 0 < total_size then [Ev.pct (downloaded + n) total_size] else []) ++
      chunkEvents total_size (downloaded + n) rest

/-- All progress events of `single_stream_download`: an indeterminate
message up front when the size is unknown, one percentage per chunk when
it is known, and the final literal `100.00%` only when it is known. -/
def single_stream_events (total_size : Nat) (chunks : List Nat) : List Ev :=
  (if total_size = 0 then [Ev.msg "Downloading…"] else []) ++
  chunkEvents total_size 0 chunks ++
  (if 0 < total_size then [Ev.msg "100.00%"] else [])

/-- Running byte totals after each chunk, starting from `acc`. -/
def cumSumsFrom (acc : Nat) : List Nat → List Nat
  | [] => []
  | n :: rest => (acc + n) :: cumSumsFrom (acc + n) rest

lemma chunkEvents_eq_map (total_size : Nat) (h : 0 < total_size)
    (acc : Nat) (chunks : List Nat) :
    chunkEvents total_size acc chunks =
      (cumSumsFrom acc chunks).map (fun d => Ev.pct d total_size) := by
  induction chunks generalizing acc with
  | nil => simp [chunkEvents, cumSumsFrom]
  | cons n rest ih => simp [chunkEvents, cumSumsFrom, h, ih]

lemma chunkEvents_zero (acc : Nat) (chunks : List Nat) :
    chunkEvents 0 acc chunks = [] := by
  induction chunks generalizing acc with
  | nil => rfl
  | cons n rest ih => simp [chunkEvents, ih]

lemma cumSumsFrom_length (acc : Nat) (chunks : List Nat) :
    (cumSumsFrom acc chunks).length = chunks.length := by
  induction chunks generalizing acc with
  | nil => rfl
  | cons n rest ih => simp [cumSumsFrom, ih]

/-- C5: with the content length known (positive), the single-stream
downloader emits exactly one two-decimal percentage event per 8 KiB-sized
chunk — carrying the running byte count over the total — followed by the
final literal `100.00%`; with the length unknown it emits exactly the one
indeterminate `Downloading…` event, no percentages and no final 100%. -/
theorem single_stream_events_spec (total_size : Nat) (chunks : List Nat)
    (hchunks : ∀ c ∈ chunks, 0 < c ∧ c ≤ 8192) :
    (0 < total_size →
      single_stream_events total_size chunks =
        (cumSumsFrom 0 chunks).map (fun d => Ev.pct d total_size) ++
          [Ev.msg "100.00%"] ∧
      (cumSumsFrom 0 chunks).length = chunks.length) ∧
    (total_size = 0 →
      single_stream_events total_size chunks = [Ev.msg "Downloading…"]) := by
  constructor
  · intro h
    refine ⟨?_, cumSumsFrom_length 0 chunks⟩
    simp [single_stream_events, chunkEvents_eq_map total_size h, h, Nat.pos_iff_ne_zero.mp h]
  · rintro rfl
    simp [single_stream_events, chunkEvents_zero]

/-- Witness for C5: two 50-byte chunks of a 100-byte body give the two
running percentages and then the final `100.00%`. -/
theorem single_stream_events_spec_witness :
    (0 < 100 →
      single_stream_events 100 [50, 50] =
        (cumSumsFrom 0 [50, 50]).map (fun d => Ev.pct d 100) ++
          [Ev.msg "100.00%"] ∧
      (cumSumsFrom 0 [50, 50]).length = ([50, 50] : List Nat).length) ∧
    ((100 : Nat) = 0 →
      single_stream_events 100 [50, 50] = [Ev.msg "Downloading…"]) :=
  single_stream_events_spec 100 [50, 50] (by decide)

/-- `Path::parent`: drop the last component; `none` for a bare root or the
empty relative path. -/
def RPath.parent (p : RPath) : Option RPath :=
  match p.comps with
  | [] => none
  | _ :: _ => some ⟨p.absolute, p.comps.dropLast⟩

/-- The directories `fs::create_dir_all` guarantees to exist afterwards:
every non-empty component prefix of the path, outermost first. -/
def RPath.dirChain (p : RPath) : List RPath :=
  (List.range p.comps.length).map (fun k => ⟨p.absolute, p.comps.take (k + 1)⟩)

/-- Record a directory as existing (idempotently). -/
def insertDir (ds : List RPath) (p : RPath) : List RPath :=
  if p ∈ ds then ds else ds ++ [p]

/-- `fs::create_dir_all`: record the path and all its ancestors. -/
def createDirAll (ds : List RPath) (p : RPath) : List RPath :=
  p.dirChain.foldl insertDir ds

/-- Replace-or-append a binding in an association list (the effect of
`File::create` plus writing: any previous content at that path is
replaced). -/
def setAssoc {α : Type} (k : RPath) (v : α) : List (RPath × α) → List (RPath × α)
  | [] => [(k, v)]
  | (k0, v0) :: rest =>
    if k0 = k then (k, v) :: rest else (k0, v0) :: setAssoc k v rest

/-- The filesystem state the extractor manipulates: existing directories,
file contents by path, and unix permission modes by path. -/
structure FS where
  dirs : List RPath
  files : List (RPath × List Nat)
  perms : List (RPath × Nat)
  deriving DecidableEq, Repr

/-- One archive entry as read from the zip central directory. -/
structure ZipEntry where
  name : String
  is_dir : Bool
  content : List Nat
  unix_mode : Option Nat
  deriving DecidableEq, Repr

/-- The success branch of extracting one entry at its sanitized output
path: a directory entry creates the directory recursively; a file entry
creates the parent directories, writes the content byte-for-byte into a
newly created file, and propagates the source permission mode when
present. -/
def applyEntry (e : ZipEntry) (outpath : RPath) (fs : FS) : FS :=
  if e.is_dir then { fs with dirs := createDirAll fs.dirs outpath }
  else
    let fs1 :=
      match outpath.parent with
      | some par => { fs with dirs := createDirAll fs.dirs par }
      | none => fs
    let fs2 := { fs1 with files := setAssoc outpath e.content fs1.files }
    match e.unix_mode with
    | some m => { fs2 with perms := setAssoc outpath m fs2.perms }
    | none => fs2

/-- Extract one entry: sanitize its name, then apply its effect. -/
def extract_entry (dest_dir : RPath) (fs : FS) (e : ZipEntry) : Except String FS :=
  match safe_join dest_dir e.name with
  | Except.error msg => Except.error msg
  | Except.ok outpath => Except.ok (applyEntry e outpath fs)

/-- The entry loop of `extract_zip`: process entries in enumeration order,
stopping at the first failure; the state reached so far is kept. -/
def extract_zip_go (dest_dir : RPath) : List ZipEntry → FS → FS × Option String
  | [], fs => (fs, none)
  | e :: rest, fs =>
    match extract_entry dest_dir fs e with
    | Except.error msg => (fs, some msg)
    | Except.ok fs2 => extract_zip_go dest_dir rest fs2

/-- `extract_zip`: create the destination directory, then run the entry
loop. -/
def extract_zip (dest_dir : RPath) (entries : List ZipEntry) (fs : FS) :
    FS × Option String :=
  extract_zip_go dest_dir entries { fs with dirs := createDirAll fs.dirs dest_dir }

lemma mem_setAssoc {α : Type} (k : RPath) (v : α) (l : List (RPath × α))
    (pr : RPath × α) :
    pr ∈ setAssoc k v l → pr ∈ l ∨ pr = (k, v) := by
  induction l with
  | nil => intro h; simp [setAssoc] at h; exact Or.inr h
  | cons head rest ih =>
    obtain ⟨k0, v0⟩ := head
    by_cases h1 : k0 = k
    · subst h1
      intro h
      rw [setAssoc, if_pos rfl] at h
      rcases List.mem_cons.mp h with h2 | h2
      · exact Or.inr h2
      · exact Or.inl (List.mem_cons_of_mem _ h2)
    · intro h
      rw [setAssoc, if_neg h1] at h
      rcases List.mem_cons.mp h with h2 | h2
      · exact Or.inl (h2 ▸ List.mem_cons_self _ _)
      · rcases ih h2 with h3 | h3
        · exact Or.inl (List.mem_cons_of_mem _ h3)
        · exact Or.inr h3

/-- Is the sanitization of this entry's name accepted? -/
def entrySafe (dest_dir : RPath) (e : ZipEntry) : Bool :=
  match safe_join dest_dir e.name with
  | Except.ok _ => true
  | Except.error _ => false

lemma entrySafe_ok {dest_dir : RPath} {e : ZipEntry}
    (h : entrySafe dest_dir e = true) :
    ∃ outpath, safe_join dest_dir e.name = Except.ok outpath := by
  unfold entrySafe at h
  rcases hsj : safe_join dest_dir e.name with msg | outpath
  · rw [hsj] at h; cases h
  · exact ⟨outpath, rfl⟩

lemma entrySafe_error {dest_dir : RPath} {e : ZipEntry}
    (h : entrySafe dest_dir e = false) :
    safe_join dest_dir e.name =
      Except.error ("Unsafe zip entry path: " ++ e.name) := by
  unfold entrySafe at h
  unfold safe_join at h ⊢
  rcases hcc : cleanComps (pathComponents e.name) with _ | l
  · rfl
  · rw [hcc] at h; cases h

lemma safe_join_ok_shape {dest_dir : RPath} {n : String} {p : RPath}
    (h : safe_join dest_dir n = Except.ok p) :
    p.absolute = dest_dir.absolute ∧ ∃ suf, p.comps = dest_dir.comps ++ suf := by
  unfold safe_join at h
  rcases hcc : cleanComps (pathComponents n) with _ | l <;> rw [hcc] at h
  · cases h
  · cases h
    exact ⟨rfl, l, rfl⟩

lemma go_snd_none_of_safe (dest_dir : RPath) (es : List ZipEntry)
    (hsafe : ∀ e ∈ es, entrySafe dest_dir e = true) :
    ∀ fs, (extract_zip_go dest_dir es fs).2 = none := by
  induction es with
  | nil => intro fs; rfl
  | cons e rest ih =>
    intro fs
    obtain ⟨outpath, hout⟩ := entrySafe_ok (hsafe e (List.mem_cons_self _ _))
    simp only [extract_zip_go, extract_entry, hout]
    exact ih (fun x hx => hsafe x (List.mem_cons_of_mem _ hx)) _

lemma go_aborts_at_first_bad (dest_dir : RPath) :
    ∀ (es : List ZipEntry) (i : Nat) (fs : FS) (hi : i < es.length),
      (∀ e ∈ es.take i, entrySafe dest_dir e = true) →
      entrySafe dest_dir (es.get ⟨i, hi⟩) = false →
      extract_zip_go dest_dir es fs =
        ((extract_zip_go dest_dir (es.take i) fs).1,
          some ("Unsafe zip entry path: " ++ (es.get ⟨i, hi⟩).name)) := by
  intro es
  induction es with
  | nil => intro i fs hi; cases hi
  | cons e rest ih =>
    intro i fs hi hgood hbad
    cases i with
    | zero =>
      simp only [List.get] at hbad
      simp only [extract_zip_go, extract_entry, entrySafe_error hbad, List.take_zero]
      rfl
    | succ j =>
      have hse : entrySafe dest_dir e = true :=
        hgood e (by simp [List.take_succ_cons])
      obtain ⟨outpath, hout⟩ := entrySafe_ok hse
      simp only [List.take_succ_cons, extract_zip_go, extract_entry, hout, List.get]
      exact ih j _ (Nat.lt_of_succ_lt_succ hi)
        (fun x hx => hgood x (by simp [List.take_succ_cons, hx]))
        hbad

lemma go_files_stay_under (dest_dir : RPath) :
    ∀ (es : List ZipEntry) (fs : FS) (pr : RPath × List Nat),
      pr ∈ (extract_zip_go dest_dir es fs).1.files →
      pr ∈ fs.files ∨
        (pr.1.absolute = dest_dir.absolute ∧
          ∃ suf, pr.1.comps = dest_dir.comps ++ suf) := by
  intro es
  induction es with
  | nil => intro fs pr h; exact Or.inl h
  | cons e rest ih =>
    intro fs pr h
    rcases hse : entrySafe dest_dir e with _ | _
    · rw [extract_zip_go, extract_entry, entrySafe_error hse] at h
      exact Or.inl h
    · obtain ⟨outpath, hout⟩ := entrySafe_ok hse
      rw [extract_zip_go, extract_entry, hout] at h
      rcases ih _ pr h with h2 | h2
      · -- pr comes from applyEntry's state: either it was already in fs
        -- or it is the file binding this entry wrote at its safe path
        unfold applyEntry at h2
        by_cases hd : e.is_dir = true
        · rw [if_pos hd] at h2
          exact Or.inl h2
        · rw [if_neg hd] at h2
          have h3 : pr ∈ setAssoc outpath e.content fs.files := by
            rcases hp : outpath.parent with _ | par <;>
              rcases hm : e.unix_mode with _ | m <;>
                simp only [hp, hm] at h2 <;> exact h2
          rcases mem_setAssoc _ _ _ _ h3 with h4 | h4
          · exact Or.inl h4
          · obtain ⟨habs, suf, hsuf⟩ := safe_join_ok_shape hout
            rw [h4]
            exact Or.inr ⟨habs, suf, hsuf⟩
      · exact Or.inr h2

/-- C6: if entry `i` is the first whose name fails sanitization, then
`extract_zip` stops exactly there: it returns the unsafe-path error for
that entry, the resulting filesystem state is precisely the state after
extracting only the entries before `i` (entries after `i` have no effect;
the earlier entries are kept — no rollback), extraction of the earlier
prefix alone reports no error, and every file present afterwards was
either present initially or lies under the destination root. -/
theorem extract_zip_aborts_on_unsafe (dest_dir : RPath)
    (entries : List ZipEntry) (fs0 : FS) (i : Nat) (hi : i < entries.length)
    (hgood : ∀ e ∈ entries.take i, entrySafe dest_dir e = true)
    (hbad : entrySafe dest_dir (entries.get ⟨i, hi⟩) = false) :
    extract_zip dest_dir entries fs0 =
      ((extract_zip dest_dir (entries.take i) fs0).1,
        some ("Unsafe zip entry path: " ++ (entries.get ⟨i, hi⟩).name)) ∧
    (extract_zip dest_dir (entries.take i) fs0).2 = none ∧
    ∀ pr ∈ (extract_zip dest_dir entries fs0).1.files,
      pr ∈ fs0.files ∨
        (pr.1.absolute = dest_dir.absolute ∧
          ∃ suf, pr.1.comps = dest_dir.comps ++ suf) := by
  refine ⟨?_, ?_, ?_⟩
  · unfold extract_zip
    exact go_aborts_at_first_bad dest_dir entries i _ hi hgood hbad
  · unfold extract_zip
    exact go_snd_none_of_safe dest_dir (entries.take i) hgood _
  · intro pr hpr
    unfold extract_zip at hpr
    rcases go_files_stay_under dest_dir entries _ pr hpr with h | h
    · exact Or.inl h
    · exact Or.inr h

/-- Witness for C6: a two-entry archive whose second entry is
`../../etc/passwd`; extraction errors there, keeps the first entry's
file, and writes nothing outside the root. -/
theorem extract_zip_aborts_on_unsafe_witness :
    extract_zip ⟨true, ["dest"]⟩
        [⟨"a.txt", false, [65], none⟩, ⟨"../../etc/passwd", false, [66], none⟩]
        ⟨[], [], []⟩ =
      ((extract_zip ⟨true, ["dest"]⟩
          ([⟨"a.txt", false, [65], none⟩,
            ⟨"../../etc/passwd", false, [66], none⟩].take 1) ⟨[], [], []⟩).1,
        some ("Unsafe zip entry path: " ++
          (([⟨"a.txt", false, [65], none⟩,
            ⟨"../../etc/passwd", false, [66], none⟩] :
              List ZipEntry).get ⟨1, by decide⟩).name)) ∧
    (extract_zip ⟨true, ["dest"]⟩
        ([⟨"a.txt", false, [65], none⟩,
          ⟨"../../etc/passwd", false, [66], none⟩].take 1) ⟨[], [], []⟩).2 =
      none ∧
    ∀ pr ∈ (extract_zip ⟨true, ["dest"]⟩
        [⟨"a.txt", false, [65], none⟩, ⟨"../../etc/passwd", false, [66], none⟩]
        ⟨[], [], []⟩).1.files,
      pr ∈ (⟨[], [], []⟩ : FS).files ∨
        (pr.1.absolute = (⟨true, ["dest"]⟩ : RPath).absolute ∧
          ∃ suf, pr.1.comps = (⟨true, ["dest"]⟩ : RPath).comps ++ suf) :=
  extract_zip_aborts_on_unsafe ⟨true, ["dest"]⟩
    [⟨"a.txt", false, [65], none⟩, ⟨"../../etc/passwd", false, [66], none⟩]
    ⟨[], [], []⟩ 1 (by decide) (by decide) (by decide)

/-- The outcome of each fallible step of `download_file`'s blocking task:
`none` means the step succeeds, `some e` that it fails with error `e`
(the destination resolution also carries its resolved path). -/
structure OrchestraEnv where
  resolveDirRes : Except String RPath
  createDirRes : Option String
  downloadRes : Option String
  emitExtractingRes : Option String
  extractRes : Option String
  emitExtractedRes : Option String
  markRes : Option String
  emitCompleteRes : Option String

/-- The externally observable steps `download_file` attempts, in source
order. -/
inductive Step where
  | resolveDir
  | createDir
  | download
  | emitExtracting
  | extractStep
  | emitExtracted
  | mark
  | emitComplete
  deriving DecidableEq, Repr

/-- The sequence of steps `download_file` attempts and its result: each
step is attempted only if every previous one succeeded (`?` early
return). `mark` is the `mark_downloaded` record update; `emitComplete`
the final completion event. -/
def download_file_trace (env : OrchestraEnv) : List Step × Except String Unit :=
  match env.resolveDirRes with
  | Except.error e => ([Step.resolveDir], Except.error e)
  | Except.ok _ =>
    match env.createDirRes with
    | some e => ([Step.resolveDir, Step.createDir], Except.error e)
    | none =>
      match env.downloadRes with
      | some e =>
        ([Step.resolveDir, Step.createDir, Step.download], Except.error e)
      | none =>
        match env.emitExtractingRes with
        | some e =>
          ([Step.resolveDir, Step.createDir, Step.download,
            Step.emitExtracting], Except.error e)
        | none =>
          match env.extractRes with
          | some e =>
            ([Step.resolveDir, Step.createDir, Step.download,
              Step.emitExtracting, Step.extractStep], Except.error e)
          | none =>
            match env.emitExtractedRes with
            | some e =>
              ([Step.resolveDir, Step.createDir, Step.download,
                Step.emitExtracting, Step.extractStep, Step.emitExtracted],
                Except.error e)
            | none =>
              match env.markRes with
              | some e =>
                ([Step.resolveDir, Step.createDir, Step.download,
                  Step.emitExtracting, Step.extractStep, Step.emitExtracted,
                  Step.mark], Except.error e)
              | none =>
                match env.emitCompleteRes with
                | some e =>
                  ([Step.resolveDir, Step.createDir, Step.download,
                    Step.emitExtracting, Step.extractStep, Step.emitExtracted,
                    Step.mark, Step.emitComplete], Except.error e)
                | none =>
                  ([Step.resolveDir, Step.createDir, Step.download,
                    Step.emitExtracting, Step.extractStep, Step.emitExtracted,
                    Step.mark, Step.emitComplete], Except.ok ())

/-- C7: the `mark_downloaded` update is attempted only when the download
and the extraction (and every step before them) succeeded, and then it
comes right after extraction in the step order; whenever the download or
the extraction fails, the flag update never happens. -/
theorem mark_downloaded_gate (env : OrchestraEnv) :
    (Step.mark ∈ (download_file_trace env).1 →
      env.downloadRes = none ∧ env.extractRes = none ∧
      (download_file_trace env).1.take 7 =
        [Step.resolveDir, Step.createDir, Step.download, Step.emitExtracting,
          Step.extractStep, Step.emitExtracted, Step.mark]) ∧
    ((¬env.downloadRes = none ∨ ¬env.extractRes = none) →
      ¬Step.mark ∈ (download_file_trace env).1) := by
  obtain ⟨r1, r2, r3, r4, r5, r6, r7, r8⟩ := env
  rcases r1 with e1 | p1 <;>
    rcases r2 with _ | e2 <;>
      rcases r3 with _ | e3 <;>
        rcases r4 with _ | e4 <;>
          rcases r5 with _ | e5 <;>
            rcases r6 with _ | e6 <;>
              rcases r7 with _ | e7 <;>
                rcases r8 with _ | e8 <;>
                  simp [download_file_trace]

/-- Witness for C7: with every step succeeding, `mark` is in the trace in
the stated position and both gates hold. -/
theorem mark_downloaded_gate_witness :
    ((⟨Except.ok ⟨true, ["d"]⟩, none, none, none, none, none, none, none⟩ :
        OrchestraEnv).downloadRes = none) ∧
    ((⟨Except.ok ⟨true, ["d"]⟩, none, none, none, none, none, none, none⟩ :
        OrchestraEnv).extractRes = none) ∧
    (download_file_trace
        ⟨Except.ok ⟨true, ["d"]⟩, none, none, none, none, none, none,
          none⟩).1.take 7 =
      [Step.resolveDir, Step.createDir, Step.download, Step.emitExtracting,
        Step.extractStep, Step.emitExtracted, Step.mark] :=
  (mark_downloaded_gate
      ⟨Except.ok ⟨true, ["d"]⟩, none, none, none, none, none, none, none⟩).1
    (by decide)

/-- The poll loop of `ranged_parallel_download_4`: each iteration reads
the shared counter and emits its percentage; the loop exits once the
reading has reached the total. `readings` are the successive values the
loop observes. -/
def pollLoopEvents (total_size : Nat) : List Nat → List Ev
  | [] => []
  | r :: rest =>
    Ev.pct r total_size ::
      (if total_size ≤ r then [] else pollLoopEvents total_size rest)

/-- The progress events of a successful parallel download: the poll
loop's percentages followed by the final literal `100.00%`. -/
def parallel_success_events (total_size : Nat) (readings : List Nat) :
    List Ev :=
  pollLoopEvents total_size readings ++ [Ev.msg "100.00%"]

/-- The shared counter after the first `k` worker increments
(`fetch_add` only ever adds). -/
def counterAfter (incs : List Nat) (k : Nat) : Nat := (incs.take k).sum

/-- The percentage value an event stands for in a job with known total:
a percentage event means `downloaded / total * 100`, the closing literal
means 100. -/
def evPercent : Ev → ℚ
  | Ev.msg _ => 100
  | Ev.pct d t => if t = 0 then 0 else (d : ℚ) * 100 / t

lemma evPercent_pct_le (T a b : Nat) (hT : 0 < T) (hab : a ≤ b) :
    evPercent (Ev.pct a T) ≤ evPercent (Ev.pct b T) := by
  simp only [evPercent, if_neg (Nat.pos_iff_ne_zero.mp hT)]
  have hc : (0 : ℚ) < T := by exact_mod_cast hT
  rw [div_le_div_iff_of_pos_right hc]
  have : (a : ℚ) ≤ (b : ℚ) := by exact_mod_cast hab
  nlinarith

lemma evPercent_pct_le_hundred (T a : Nat) (hT : 0 < T) (ha : a ≤ T) :
    evPercent (Ev.pct a T) ≤ 100 := by
  simp only [evPercent, if_neg (Nat.pos_iff_ne_zero.mp hT)]
  have hc : (0 : ℚ) < T := by exact_mod_cast hT
  rw [div_le_iff₀ hc]
  have : (a : ℚ) ≤ (T : ℚ) := by exact_mod_cast ha
  nlinarith

lemma pctEvents_chain (T : Nat) (hT : 0 < T) :
    ∀ vals : List Nat, vals.Chain' (· ≤ ·) → (∀ v ∈ vals, v ≤ T) →
      ((vals.map (fun d => Ev.pct d T) ++ [Ev.msg "100.00%"]).map
        evPercent).Chain' (· ≤ ·) := by
  intro vals
  induction vals with
  | nil => intro _ _; simp [List.chain'_singleton]
  | cons v rest ih =>
    intro hchain hle
    rcases rest with _ | ⟨v2, rest2⟩
    · simp only [List.map_cons, List.map_nil, List.nil_append, List.cons_append,
        List.chain'_cons, List.map_append]
      exact ⟨evPercent_pct_le_hundred T v hT (hle v (List.mem_cons_self _ _)),
        List.chain'_singleton _⟩
    · simp only [List.map_cons, List.cons_append, List.chain'_cons] at *
      refine ⟨evPercent_pct_le T v v2 hT hchain.1, ?_⟩
      exact ih hchain.2 (fun x hx => hle x (List.mem_cons_of_mem _ hx))

/-- The readings the poll loop consumes before exiting. -/
def pollPrefix (total_size : Nat) : List Nat → List Nat
  | [] => []
  | r :: rest => r :: (if total_size ≤ r then [] else pollPrefix total_size rest)

lemma pollLoopEvents_eq_map (T : Nat) :
    ∀ rs, pollLoopEvents T rs = (pollPrefix T rs).map (fun d => Ev.pct d T) := by
  intro rs
  induction rs with
  | nil => rfl
  | cons r rest ih =>
    by_cases h : T ≤ r <;> simp [pollLoopEvents, pollPrefix, h, ih]

lemma pollPrefix_chain (T : Nat) :
    ∀ rs : List Nat, rs.Chain' (· ≤ ·) → (pollPrefix T rs).Chain' (· ≤ ·) := by
  intro rs
  induction rs with
  | nil => intro _; exact List.chain'_nil
  | cons r rest ih =>
    intro hchain
    rw [pollPrefix]
    by_cases h : T ≤ r
    · simp [h, List.chain'_singleton]
    · rw [if_neg h]
      rw [List.chain'_cons'] at hchain ⊢
      refine ⟨?_, ih hchain.2⟩
      intro y hy
      rcases rest with _ | ⟨r2, rest2⟩
      · cases hy
      · have h2 : r2 = y := by
          rw [pollPrefix] at hy
          simpa using hy
        exact h2 ▸ hchain.1 _ rfl

lemma pollPrefix_mem (T : Nat) :
    ∀ rs : List Nat, ∀ x ∈ pollPrefix T rs, x ∈ rs := by
  intro rs
  induction rs with
  | nil => intro x hx; cases hx
  | cons r rest ih =>
    intro x hx
    rw [pollPrefix] at hx
    by_cases h : T ≤ r
    · rw [if_pos h] at hx
      have h2 : x = r := by simpa using hx
      exact h2 ▸ List.mem_cons_self _ _
    · rw [if_neg h] at hx
      rcases List.mem_cons.mp hx with rfl | hx2
      · exact List.mem_cons_self _ _
      · exact List.mem_cons_of_mem _ (ih x hx2)

lemma sum_take_le_sum (l : List Nat) : ∀ k, (l.take k).sum ≤ l.sum := by
  induction l with
  | nil => intro k; simp
  | cons a t ih =>
    intro k
    cases k with
    | zero => simp
    | succ j => simpa using ih j

lemma counterAfter_mono (incs : List Nat) {k k2 : Nat} (h : k ≤ k2) :
    counterAfter incs k ≤ counterAfter incs k2 := by
  unfold counterAfter
  calc (incs.take k).sum = ((incs.take k2).take k).sum := by
        rw [List.take_take, Nat.min_eq_left h]
    _ ≤ (incs.take k2).sum := sum_take_le_sum _ _

lemma mem_cumSumsFrom_le (l : List Nat) :
    ∀ acc x, x ∈ cumSumsFrom acc l → x ≤ acc + l.sum := by
  induction l with
  | nil => intro acc x hx; cases hx
  | cons n rest ih =>
    intro acc x hx
    rw [cumSumsFrom] at hx
    rcases List.mem_cons.mp hx with rfl | hx2
    · simp
    · have := ih (acc + n) x hx2
      simp at this ⊢
      omega

lemma cumSumsFrom_chain (l : List Nat) :
    ∀ acc, (cumSumsFrom acc l).Chain' (· ≤ ·) := by
  induction l with
  | nil => intro acc; exact List.chain'_nil
  | cons n rest ih =>
    intro acc
    rw [cumSumsFrom, List.chain'_cons']
    refine ⟨?_, ih (acc + n)⟩
    intro y hy
    rcases rest with _ | ⟨n2, rest2⟩
    · cases hy
    · have h2 : acc + n + n2 = y := by
        rw [cumSumsFrom] at hy
        simpa using hy
      omega

/-- C8 (amended): for a job with known positive total size, provided the
workers together deliver at most the probed total (a server honouring
the range requests), the percentage values emitted are monotonically
non-decreasing and the last progress event on success is the literal
`100.00%`. In the parallel path the loop reads the shared counter at
successive prefixes of the workers' increments — the counter is only
ever incremented — and stops at the first reading that reaches the
total; in the single-stream path the percentages follow the running byte
count. Without the delivery bound a counter reading can pass the total
and the poll loop emits a percentage above 100 before the final literal. -/
theorem progress_monotone (T : Nat) (hT : 0 < T) (incs : List Nat)
    (ks : List Nat) (hks : ks.Chain' (· ≤ ·)) (hsum : incs.sum ≤ T)
    (chunks : List Nat) (hchunks : chunks.sum ≤ T) :
    (((parallel_success_events T (ks.map (counterAfter incs))).map
        evPercent).Chain' (· ≤ ·) ∧
      (parallel_success_events T (ks.map (counterAfter incs))).getLast? =
        some (Ev.msg "100.00%")) ∧
    (((single_stream_events T chunks).map evPercent).Chain' (· ≤ ·) ∧
      (single_stream_events T chunks).getLast? = some (Ev.msg "100.00%")) := by
  have hTne : ¬T = 0 := Nat.pos_iff_ne_zero.mp hT
  constructor
  · constructor
    · rw [parallel_success_events, pollLoopEvents_eq_map]
      apply pctEvents_chain T hT
      · apply pollPrefix_chain
        exact (List.chain'_map _).mpr
          (hks.imp (fun a b h => counterAfter_mono incs h))
      · intro v hv
        have hvm := pollPrefix_mem T _ v hv
        obtain ⟨k, _, rfl⟩ := List.mem_map.mp hvm
        exact le_trans (sum_take_le_sum incs k) hsum
    · rw [parallel_success_events]
      exact List.getLast?_concat _
  · have hrw : single_stream_events T chunks =
        (cumSumsFrom 0 chunks).map (fun d => Ev.pct d T) ++
          [Ev.msg "100.00%"] := by
      simp [single_stream_events, hTne, hT, chunkEvents_eq_map T hT]
    rw [hrw]
    constructor
    · apply pctEvents_chain T hT
      · exact cumSumsFrom_chain chunks 0
      · intro v hv
        have := mem_cumSumsFrom_le chunks 0 v hv
        omega
    · exact List.getLast?_concat _

/-- Witness for C8: three increments of 3, 4 and 3 bytes of a 10-byte
job, polled after 1, 2 and 3 increments, plus a single-stream trace with
two chunks. -/
theorem progress_monotone_witness :
    (((parallel_success_events 10 ([1, 2, 3].map (counterAfter [3, 4, 3]))).map
        evPercent).Chain' (· ≤ ·) ∧
      (parallel_success_events 10 ([1, 2, 3].map (counterAfter [3, 4, 3]))).getLast? =
        some (Ev.msg "100.00%")) ∧
    (((single_stream_events 10 [5, 5]).map evPercent).Chain' (· ≤ ·) ∧
      (single_stream_events 10 [5, 5]).getLast? = some (Ev.msg "100.00%")) :=
  progress_monotone 10 (by decide) [3, 4, 3] [1, 2, 3]
    (List.chain'_cons.mpr ⟨by omega, List.chain'_cons.mpr
      ⟨by omega, List.chain'_singleton _⟩⟩)
    (by decide) [5, 5] (by decide)

/-- C8 counterexample: nothing in the code bounds the shared counter by
the total — each worker adds every byte the server sends, and a server
that ignores the range header delivers whole bodies. With total size 10
and one counter increment of 23 bytes, the poll loop reads 23, emits
230%, exits, and the job still finishes with the literal `100.00%`: the
emitted percentage values of a successful known-size job decrease. -/
theorem progress_monotone_counterexample :
    (0 : Nat) < 10 ∧
    ([1] : List Nat).Chain' (· ≤ ·) ∧
    (parallel_success_events 10 ([1].map (counterAfter [23]))).map evPercent =
      [230, 100] ∧
    ¬((parallel_success_events 10 ([1].map (counterAfter [23]))).map
        evPercent).Chain' (· ≤ ·) := by
  have heval :
      (parallel_success_events 10 ([1].map (counterAfter [23]))).map
        evPercent = [230, 100] := by
    simp [parallel_success_events, pollLoopEvents, counterAfter, evPercent]
    norm_num
  refine ⟨by norm_num, List.chain'_singleton _, heval, ?_⟩
  intro h
  rw [heval] at h
  have h2 := (List.chain'_cons.mp h).1
  norm_num at h2

/-- Rust `char::is_whitespace`: the Unicode White_Space code points. -/
def isRustWhitespace (c : Char) : Bool :=
  decide ((0x09 ≤ c.toNat ∧ c.toNat ≤ 0x0D) ∨ c.toNat = 0x20 ∨
    c.toNat = 0x85 ∨ c.toNat = 0xA0 ∨ c.toNat = 0x1680 ∨
    (0x2000 ≤ c.toNat ∧ c.toNat ≤ 0x200A) ∨ c.toNat = 0x2028 ∨
    c.toNat = 0x2029 ∨ c.toNat = 0x202F ∨ c.toNat = 0x205F ∨
    c.toNat = 0x3000)

/-- Rust `str::trim` on a character list: drop leading and trailing
whitespace. -/
def rustTrimChars (cs : List Char) : List Char :=
  ((cs.dropWhile isRustWhitespace).reverse.dropWhile isRustWhitespace).reverse

/-- `resolve_download_dir`: an override, when present, must be non-blank
and wins outright; otherwise the settings row decides (a database error
propagates, a missing or blank value falls back to the default
directory). `db` is the outcome of opening the database and querying the
`download_dir` key. -/
def resolve_download_dir (override_dir : Option String)
    (db : Except String (Option String)) (default_dir : String) :
    Except String String :=
  match override_dir with
  | some p =>
    if rustTrimChars p.data = [] then
      Except.error "downloadDir cannot be empty"
    else Except.ok p
  | none =>
    match db with
    | Except.error e => Except.error e
    | Except.ok saved =>
      match saved with
      | some v =>
        if ¬rustTrimChars v.data = [] then Except.ok v
        else Except.ok default_dir
      | none => Except.ok default_dir

lemma rustTrim_empty_iff (cs : List Char) :
    rustTrimChars cs = [] ↔ ∀ c ∈ cs, isRustWhitespace c = true := by
  unfold rustTrimChars
  rw [List.reverse_eq_nil_iff, List.dropWhile_eq_nil_iff]
  constructor
  · intro h
    have hnil : cs.dropWhile isRustWhitespace = [] := by
      by_contra hne
      have hpos : 0 < (cs.dropWhile isRustWhitespace).length :=
        List.length_pos.mpr hne
      have hhead := List.dropWhile_get_zero_not (p := isRustWhitespace) cs hpos
      have hmem : (cs.dropWhile isRustWhitespace).get ⟨0, hpos⟩ ∈
          (cs.dropWhile isRustWhitespace).reverse :=
        List.mem_reverse.mpr (List.get_mem _ _ _)
      exact hhead (h _ hmem)
    exact List.dropWhile_eq_nil_iff.mp hnil
  · intro h x hx
    have hnil : cs.dropWhile isRustWhitespace = [] :=
      List.dropWhile_eq_nil_iff.mpr h
    rw [hnil] at hx
    simp at hx

/-- C10: a present override that is blank — empty or only whitespace —
fails resolution with `downloadDir cannot be empty` (never falling back);
a present non-blank override is returned as-is, independent of the
persisted setting and the default; the setting and the default are
consulted only when the override is absent. -/
theorem resolve_download_dir_spec (p : String)
    (db db2 : Except String (Option String)) (d d2 : String) :
    ((∀ c ∈ p.data, isRustWhitespace c = true) →
      resolve_download_dir (some p) db d =
        Except.error "downloadDir cannot be empty") ∧
    ((¬∀ c ∈ p.data, isRustWhitespace c = true) →
      resolve_download_dir (some p) db d = Except.ok p) ∧
    resolve_download_dir (some p) db d = resolve_download_dir (some p) db2 d2 ∧
    resolve_download_dir none (Except.ok none) d = Except.ok d := by
  refine ⟨?_, ?_, ?_, rfl⟩
  · intro h
    rw [resolve_download_dir, if_pos ((rustTrim_empty_iff _).mpr h)]
  · intro h
    rw [resolve_download_dir,
      if_neg (fun he => h ((rustTrim_empty_iff _).mp he))]
  · by_cases h : rustTrimChars p.data = [] <;>
      simp [resolve_download_dir, h]

/-- Witness for C10: the three-space override fails with the expected
error; the non-blank override `/roms` is returned unchanged. -/
theorem resolve_download_dir_spec_witness :
    resolve_download_dir (some "   ") (Except.ok (some "/saved")) "/default" =
      Except.error "downloadDir cannot be empty" ∧
    resolve_download_dir (some "/roms") (Except.ok (some "/saved")) "/default" =
      Except.ok "/roms" :=
  ⟨(resolve_download_dir_spec "   " (Except.ok (some "/saved"))
      (Except.ok (some "/saved")) "/default" "/default").1 (by decide),
    (resolve_download_dir_spec "/roms" (Except.ok (some "/saved"))
      (Except.ok (some "/saved")) "/default" "/default").2.1 (by decide)⟩
